import Mathlib

/-!
Verification of the notebook extension-host model
(`src/vs/workbench/contrib/notebook/browser/renderers/codeCell.ts`).

The development shallowly embeds, faithfully to the source:
  * the greedy splice engine `diff` (with its inner `pushSplice` merging),
  * the mimetype priority scan `getMimeTypeOrder`,
  * the output resolution `transformMimeTypes` (instrumented with an explicit
    log of the renderer invocations it performs),
  * the `ExtHostNotebookDocument` mutations: the `cells` setter (with its
    subscription bookkeeping and the forwarded `$spliceNotebookCells`
    message built by `eventuallyUpdateCells`), `deleteCell`, and the
    `languages` getter/setter.

JavaScript reference equality on model objects is embedded as decidable
equality on their Lean counterparts; mutable fields become explicit state,
remote-proxy calls become returned message values, and a thrown `TypeError`
(undefined member access) is embedded as `Option.none`.
-/

namespace NotebookModel

/-- Splice record from `vs/base/common/sequence` (`ISplice`): a contiguous
edit of an ordered sequence. `IMutableSplice` only widens mutability, the
fields coincide. -/
structure ISplice (T : Type) where
  start : Nat
  deleteCount : Nat
  toInsert : List T
deriving DecidableEq, Repr

/-- The inner `pushSplice` of `diff`. The source pushes onto the end of
`result` and merges with `result[result.length - 1]`; the accumulator is
kept reversed here (head = latest pushed splice) and `diff` reverses it at
the end. -/
def pushSplice {T : Type} (result : List (ISplice T)) (start deleteCount : Nat)
    (toInsert : List T) : List (ISplice T) :=
  if deleteCount = 0 ∧ toInsert.isEmpty then
    result
  else
    match result with
    | latest :: rest =>
      if latest.start + latest.deleteCount = start then
        { start := latest.start, deleteCount := latest.deleteCount + deleteCount,
          toInsert := latest.toInsert ++ toInsert } :: rest
      else
        { start := start, deleteCount := deleteCount, toInsert := toInsert }
          :: latest :: rest
    | [] => [{ start := start, deleteCount := deleteCount, toInsert := toInsert }]

/-- The `while (true)` loop of `diff`.  The source walks two indices into
fixed arrays; here the not-yet-visited suffixes are carried (pattern
matching on the suffix replaces the `beforeIdx === before.length` /
`afterIdx === after.length` tests and the `before[beforeIdx]` reads) together
with the numeric `beforeIdx`, which the source uses for splice starts.
`after.slice(afterIdx)` is the carried `after` suffix.  JS `===` on elements
is decidable equality. -/
def diffAux {T : Type} [DecidableEq T] (contains : T → Bool) :
    List T → List T → Nat → List (ISplice T) → List (ISplice T)
  | [], afterRest, beforeIdx, result =>
    pushSplice result beforeIdx 0 afterRest
  | _ :: beforeRest, [], beforeIdx, result =>
    pushSplice result beforeIdx (beforeRest.length + 1) []
  | beforeElement :: beforeRest, afterElement :: afterRest, beforeIdx, result =>
    if beforeElement = afterElement then
      diffAux contains beforeRest afterRest (beforeIdx + 1) result
    else if contains afterElement then
      diffAux contains beforeRest (afterElement :: afterRest) (beforeIdx + 1)
        (pushSplice result beforeIdx 1 [])
    else
      diffAux contains (beforeElement :: beforeRest) afterRest beforeIdx
        (pushSplice result beforeIdx 0 [afterElement])
termination_by b a _ _ => b.length + a.length

/-- `diff(before, after, contains)` from the source. -/
def diff {T : Type} [DecidableEq T] (before after : List T)
    (contains : T → Bool) : List (ISplice T) :=
  (diffAux contains before after 0 []).reverse

/-- Applying a splice list left-to-right.  Each splice's `start` is an index
into the original sequence; applying left-to-right therefore carries the
position reached so far (`base`, an index into the original sequence) and the
remaining suffix of the evolving sequence from that position on.  This is the
usual cumulative-offset application of ordered splices. -/
def applySplicesFrom {T : Type} (base : Nat) (xs : List T) :
    List (ISplice T) → List T
  | [] => xs
  | s :: rest =>
    xs.take (s.start - base) ++ s.toInsert ++
      applySplicesFrom (s.start + s.deleteCount)
        (xs.drop (s.start - base + s.deleteCount)) rest

/-- Apply splices (with starts indexing the original sequence) to a sequence,
in order, left-to-right. -/
def applySplices {T : Type} (xs : List T) (splices : List (ISplice T)) : List T :=
  applySplicesFrom 0 xs splices

/-! ### Semantics infrastructure for the splice engine

`outFrom orig lo ss hi` is the contribution of the region `[lo, hi)` of the
original sequence under the splices `ss` (whose starts lie in that region):
kept stretches of `orig` interleaved with inserted items.  The loop invariant
of `diff` is stated with it; `applySplicesFrom_outFrom` connects it to the
left-to-right application `applySplices`. -/

def outFrom {T : Type} (orig : List T) (lo : Nat) :
    List (ISplice T) → Nat → List T
  | [], hi => (orig.drop lo).take (hi - lo)
  | s :: rest, hi =>
    (orig.drop lo).take (s.start - lo) ++ s.toInsert ++
      outFrom orig (s.start + s.deleteCount) rest hi

/-- Forward well-formedness of a splice list: starts are at least `lo`,
ranges are disjoint and ordered, and everything ends by `hi`. -/
def SpliceChain {T : Type} (lo : Nat) : List (ISplice T) → Nat → Prop
  | [], hi => lo ≤ hi
  | s :: rest, hi => lo ≤ s.start ∧ SpliceChain (s.start + s.deleteCount) rest hi

/-- Well-formedness of the reversed accumulator of `diffAux` relative to the
current `beforeIdx` bound: the latest splice (head) ends by the bound, and
earlier splices end by the later ones' starts. -/
def AccWF {T : Type} : List (ISplice T) → Nat → Prop
  | [], _ => True
  | s :: rest, bound => s.start + s.deleteCount ≤ bound ∧ AccWF rest s.start

theorem accWF_mono {T : Type} {acc : List (ISplice T)} {b b' : Nat}
    (h : AccWF acc b) (hb : b ≤ b') : AccWF acc b' := by
  cases acc with
  | nil => trivial
  | cons s rest => exact ⟨le_trans h.1 hb, h.2⟩

theorem spliceChain_snoc {T : Type} :
    ∀ (ts : List (ISplice T)) (lo : Nat) (s : ISplice T) (hi : Nat),
      SpliceChain lo ts s.start → s.start + s.deleteCount ≤ hi →
      SpliceChain lo (ts ++ [s]) hi := by
  intro ts
  induction ts with
  | nil => intro lo s hi h hhi; exact ⟨h, hhi⟩
  | cons t rest ih =>
    intro lo s hi h hhi
    exact ⟨h.1, ih _ s hi h.2 hhi⟩

theorem accWF_chain {T : Type} :
    ∀ (acc : List (ISplice T)) (bound : Nat), AccWF acc bound →
      SpliceChain 0 acc.reverse bound := by
  intro acc
  induction acc with
  | nil => intro bound _; exact Nat.zero_le _
  | cons s rest ih =>
    intro bound h
    simpa using spliceChain_snoc rest.reverse 0 s bound (ih _ h.2) h.1

theorem outFrom_succ {T : Type} (orig : List T) :
    ∀ (ts : List (ISplice T)) (lo bound : Nat), SpliceChain lo ts bound →
      outFrom orig lo ts (bound + 1)
        = outFrom orig lo ts bound ++ (orig.drop bound).take 1 := by
  intro ts
  induction ts with
  | nil =>
    intro lo bound h
    have hlo : lo ≤ bound := h
    simp only [outFrom]
    have h1 : bound + 1 - lo = (bound - lo) + 1 := by omega
    rw [h1, List.take_add, List.drop_drop]
    have h2 : lo + (bound - lo) = bound := by omega
    rw [h2]
  | cons s rest ih =>
    intro lo bound h
    simp only [outFrom]
    rw [ih _ bound h.2]
    simp [List.append_assoc]

theorem outFrom_snoc {T : Type} (orig : List T) :
    ∀ (ts : List (ISplice T)) (lo : Nat) (s : ISplice T),
      SpliceChain lo ts s.start →
      outFrom orig lo (ts ++ [s]) (s.start + s.deleteCount)
        = outFrom orig lo ts s.start ++ s.toInsert := by
  intro ts
  induction ts with
  | nil =>
    intro lo s _
    simp [outFrom]
  | cons t rest ih =>
    intro lo s h
    simp only [List.cons_append, outFrom, List.append_eq]
    rw [ih _ s h.2]
    simp [List.append_assoc]

theorem pushSplice_accWF {T : Type} (acc : List (ISplice T)) (start dc : Nat)
    (ins : List T) (h : AccWF acc start) :
    AccWF (pushSplice acc start dc ins) (start + dc) := by
  unfold pushSplice
  split
  · next hnoop =>
    have : dc = 0 := hnoop.1
    subst this
    exact h
  · next =>
    match acc with
    | [] => exact ⟨le_rfl, trivial⟩
    | latest :: rest =>
      simp only
      split
      · next hmerge =>
        refine ⟨?_, h.2⟩
        show latest.start + (latest.deleteCount + dc) ≤ start + dc
        omega
      · next hnomerge =>
        exact ⟨le_rfl, h⟩

theorem pushSplice_outFrom {T : Type} (orig : List T) (acc : List (ISplice T))
    (start dc : Nat) (ins : List T) (h : AccWF acc start) :
    outFrom orig 0 (pushSplice acc start dc ins).reverse (start + dc)
      = outFrom orig 0 acc.reverse start ++ ins := by
  unfold pushSplice
  split
  · next hnoop =>
    have h1 : dc = 0 := hnoop.1
    have h2 : ins = [] := List.isEmpty_iff.mp hnoop.2
    subst h1; subst h2
    simp
  · next =>
    match acc with
    | [] =>
      have := outFrom_snoc orig [] 0 ⟨start, dc, ins⟩ (Nat.zero_le _)
      simpa using this
    | latest :: rest =>
      simp only
      split
      · next hmerge =>
        have hch : SpliceChain 0 rest.reverse latest.start :=
          accWF_chain rest latest.start h.2
        have e1 := outFrom_snoc orig rest.reverse 0
          ⟨latest.start, latest.deleteCount + dc, latest.toInsert ++ ins⟩ hch
        have e2 := outFrom_snoc orig rest.reverse 0 latest hch
        simp only at e1 e2
        have hb : latest.start + (latest.deleteCount + dc) = start + dc := by omega
        rw [hb] at e1
        have hs : latest.start + latest.deleteCount = start := hmerge
        rw [hs] at e2
        simp only [List.reverse_cons]
        rw [e1, e2, List.append_assoc]
      · next hnomerge =>
        have hch : SpliceChain 0 (latest :: rest).reverse start :=
          accWF_chain (latest :: rest) start h
        have e1 := outFrom_snoc orig (latest :: rest).reverse 0
          ⟨start, dc, ins⟩ hch
        simp only [List.reverse_cons] at e1 ⊢
        exact e1

theorem diffAux_spec {T : Type} [DecidableEq T] (contains : T → Bool)
    (orig : List T) :
    ∀ (n : Nat) (beforeRest afterRest : List T) (beforeIdx : Nat)
      (acc : List (ISplice T)),
      beforeRest.length + afterRest.length ≤ n →
      beforeRest = orig.drop beforeIdx → beforeIdx ≤ orig.length →
      AccWF acc beforeIdx →
      AccWF (diffAux contains beforeRest afterRest beforeIdx acc) orig.length ∧
      outFrom orig 0 (diffAux contains beforeRest afterRest beforeIdx acc).reverse
          orig.length
        = outFrom orig 0 acc.reverse beforeIdx ++ afterRest := by
  have base1 : ∀ (afterRest : List T) (beforeIdx : Nat) (acc : List (ISplice T)),
      ([] : List T) = orig.drop beforeIdx → beforeIdx ≤ orig.length →
      AccWF acc beforeIdx →
      AccWF (diffAux contains [] afterRest beforeIdx acc) orig.length ∧
      outFrom orig 0 (diffAux contains [] afterRest beforeIdx acc).reverse
          orig.length
        = outFrom orig 0 acc.reverse beforeIdx ++ afterRest := by
    intro afterRest beforeIdx acc hdrop hle hwf
    have hlen : orig.length - beforeIdx = 0 := by
      have := congrArg List.length hdrop
      simpa using this.symm
    have hbi : beforeIdx = orig.length := by omega
    subst hbi
    rw [show diffAux contains [] afterRest orig.length acc
          = pushSplice acc orig.length 0 afterRest from by rw [diffAux]]
    constructor
    · have h1 := pushSplice_accWF acc orig.length 0 afterRest hwf
      simpa using h1
    · have h2 := pushSplice_outFrom orig acc orig.length 0 afterRest hwf
      simpa using h2
  intro n
  induction n with
  | zero =>
    intro beforeRest afterRest beforeIdx acc hn hdrop hle hwf
    have h1 : beforeRest = [] := by
      cases beforeRest with
      | nil => rfl
      | cons b bs => simp at hn
    have h2 : afterRest = [] := by
      cases afterRest with
      | nil => rfl
      | cons a as => simp at hn
    subst h1; subst h2
    exact base1 [] beforeIdx acc hdrop hle hwf
  | succ n ih =>
    intro beforeRest afterRest beforeIdx acc hn hdrop hle hwf
    cases beforeRest with
    | nil => exact base1 afterRest beforeIdx acc hdrop hle hwf
    | cons b bs =>
      have hlt : beforeIdx < orig.length := by
        have := congrArg List.length hdrop
        simp at this
        omega
      have hdrop1 : bs = orig.drop (beforeIdx + 1) := by
        have := congrArg (List.drop 1) hdrop
        simpa [List.drop_drop] using this
      cases afterRest with
      | nil =>
        have hlen : orig.length = beforeIdx + (bs.length + 1) := by
          have := congrArg List.length hdrop
          simp at this
          omega
        rw [show diffAux contains (b :: bs) [] beforeIdx acc
              = pushSplice acc beforeIdx (bs.length + 1) [] from by rw [diffAux]]
        constructor
        · have h1 := pushSplice_accWF acc beforeIdx (bs.length + 1) [] hwf
          rw [← hlen] at h1
          exact h1
        · have h2 := pushSplice_outFrom orig acc beforeIdx (bs.length + 1) [] hwf
          rw [← hlen] at h2
          simpa using h2
      | cons a as =>
        by_cases heq : b = a
        · rw [show diffAux contains (b :: bs) (a :: as) beforeIdx acc
                = diffAux contains bs as (beforeIdx + 1) acc from by
              rw [diffAux]; simp [heq]]
          have hwf1 : AccWF acc (beforeIdx + 1) := accWF_mono hwf (by omega)
          obtain ⟨hA, hB⟩ := ih bs as (beforeIdx + 1) acc (by simp at hn ⊢; omega)
            hdrop1 (by omega) hwf1
          refine ⟨hA, ?_⟩
          rw [hB, outFrom_succ orig acc.reverse 0 beforeIdx
              (accWF_chain acc beforeIdx hwf)]
          have htake : (orig.drop beforeIdx).take 1 = [b] := by
            rw [← hdrop]
            simp
          rw [htake, heq]
          simp
        · by_cases hcont : contains a = true
          · rw [show diffAux contains (b :: bs) (a :: as) beforeIdx acc
                  = diffAux contains bs (a :: as) (beforeIdx + 1)
                      (pushSplice acc beforeIdx 1 []) from by
                rw [diffAux]; simp [heq, hcont]]
            have hwf1 : AccWF (pushSplice acc beforeIdx 1 []) (beforeIdx + 1) :=
              pushSplice_accWF acc beforeIdx 1 [] hwf
            obtain ⟨hA, hB⟩ := ih bs (a :: as) (beforeIdx + 1)
              (pushSplice acc beforeIdx 1 []) (by simp at hn ⊢; omega)
              hdrop1 (by omega) hwf1
            refine ⟨hA, ?_⟩
            rw [hB]
            have h2 := pushSplice_outFrom orig acc beforeIdx 1 [] hwf
            rw [h2]
            simp
          · rw [show diffAux contains (b :: bs) (a :: as) beforeIdx acc
                  = diffAux contains (b :: bs) as beforeIdx
                      (pushSplice acc beforeIdx 0 [a]) from by
                rw [diffAux]; simp [heq, hcont]]
            have hwf1 : AccWF (pushSplice acc beforeIdx 0 [a]) beforeIdx := by
              have h1 := pushSplice_accWF acc beforeIdx 0 [a] hwf
              simpa using h1
            obtain ⟨hA, hB⟩ := ih (b :: bs) as beforeIdx
              (pushSplice acc beforeIdx 0 [a]) (by simp at hn ⊢; omega)
              hdrop (by omega) hwf1
            refine ⟨hA, ?_⟩
            rw [hB]
            have h2 := pushSplice_outFrom orig acc beforeIdx 0 [a] hwf
            simp only [Nat.add_zero] at h2
            rw [h2]
            simp

theorem applySplicesFrom_outFrom {T : Type} (orig : List T) :
    ∀ (ts : List (ISplice T)) (lo : Nat), SpliceChain lo ts orig.length →
      applySplicesFrom lo (orig.drop lo) ts = outFrom orig lo ts orig.length := by
  intro ts
  induction ts with
  | nil =>
    intro lo h
    have hlo : lo ≤ orig.length := h
    simp only [applySplicesFrom, outFrom]
    rw [List.take_of_length_le (by simp)]
  | cons s rest ih =>
    intro lo h
    have hlo : lo ≤ s.start := h.1
    simp only [applySplicesFrom, outFrom]
    have hd : (orig.drop lo).drop (s.start - lo + s.deleteCount)
        = orig.drop (s.start + s.deleteCount) := by
      rw [List.drop_drop]
      congr 1
      omega
    rw [hd, ih _ h.2]

/-- Reconstruction: applying the splices produced by `diff` to the `before`
sequence, in order, left-to-right, yields the `after` sequence.  This holds
for every `contains` predicate. -/
theorem diff_reconstructs {T : Type} [DecidableEq T] (before after : List T)
    (contains : T → Bool) :
    applySplices before (diff before after contains) = after := by
  obtain ⟨hwf, hsem⟩ := diffAux_spec contains before
    (before.length + after.length) before after 0 [] le_rfl (by simp) (by simp)
    trivial
  have hchain := accWF_chain _ _ hwf
  have hrel := applySplicesFrom_outFrom before _ 0 hchain
  simp only [List.drop_zero] at hrel
  unfold applySplices diff
  rw [hrel, hsem]
  have h0 : outFrom before 0 ([] : List (ISplice T)).reverse 0 = [] := by
    simp [outFrom]
  rw [h0]
  simp

/-- A property of the accumulator preserved by every `pushSplice` call is
preserved by the whole `diffAux` loop. -/
theorem diffAux_preserves {T : Type} [DecidableEq T]
    (P : List (ISplice T) → Prop) (contains : T → Bool)
    (hpush : ∀ acc start dc ins, P acc → P (pushSplice acc start dc ins)) :
    ∀ (n : Nat) (beforeRest afterRest : List T) (beforeIdx : Nat)
      (acc : List (ISplice T)),
      beforeRest.length + afterRest.length ≤ n → P acc →
      P (diffAux contains beforeRest afterRest beforeIdx acc) := by
  intro n
  induction n with
  | zero =>
    intro beforeRest afterRest beforeIdx acc hn hP
    have h1 : beforeRest = [] := by
      cases beforeRest with
      | nil => rfl
      | cons b bs => simp at hn
    have h2 : afterRest = [] := by
      cases afterRest with
      | nil => rfl
      | cons a as => simp at hn
    subst h1; subst h2
    rw [show diffAux contains [] [] beforeIdx acc
          = pushSplice acc beforeIdx 0 [] from by rw [diffAux]]
    exact hpush acc beforeIdx 0 [] hP
  | succ n ih =>
    intro beforeRest afterRest beforeIdx acc hn hP
    cases beforeRest with
    | nil =>
      rw [show diffAux contains [] afterRest beforeIdx acc
            = pushSplice acc beforeIdx 0 afterRest from by rw [diffAux]]
      exact hpush acc beforeIdx 0 afterRest hP
    | cons b bs =>
      cases afterRest with
      | nil =>
        rw [show diffAux contains (b :: bs) [] beforeIdx acc
              = pushSplice acc beforeIdx (bs.length + 1) [] from by rw [diffAux]]
        exact hpush acc beforeIdx (bs.length + 1) [] hP
      | cons a as =>
        by_cases heq : b = a
        · rw [show diffAux contains (b :: bs) (a :: as) beforeIdx acc
                = diffAux contains bs as (beforeIdx + 1) acc from by
              rw [diffAux]; simp [heq]]
          exact ih bs as (beforeIdx + 1) acc (by simp at hn ⊢; omega) hP
        · by_cases hcont : contains a = true
          · rw [show diffAux contains (b :: bs) (a :: as) beforeIdx acc
                  = diffAux contains bs (a :: as) (beforeIdx + 1)
                      (pushSplice acc beforeIdx 1 []) from by
                rw [diffAux]; simp [heq, hcont]]
            exact ih bs (a :: as) (beforeIdx + 1) _ (by simp at hn ⊢; omega)
              (hpush acc beforeIdx 1 [] hP)
          · rw [show diffAux contains (b :: bs) (a :: as) beforeIdx acc
                  = diffAux contains (b :: bs) as beforeIdx
                      (pushSplice acc beforeIdx 0 [a]) from by
                rw [diffAux]; simp [heq, hcont]]
            exact ih (b :: bs) as beforeIdx _ (by simp at hn ⊢; omega)
              (hpush acc beforeIdx 0 [a] hP)

/-- `pushSplice` never leaves two mergeable splices adjacent in the
accumulator (stated on the reversed accumulator: the previous splice's end
never equals the newer head's start). -/
theorem pushSplice_chain {T : Type} (acc : List (ISplice T)) (start dc : Nat)
    (ins : List T)
    (h : List.Chain' (fun s t => t.start + t.deleteCount ≠ s.start) acc) :
    List.Chain' (fun s t => t.start + t.deleteCount ≠ s.start)
      (pushSplice acc start dc ins) := by
  unfold pushSplice
  split
  · exact h
  · match acc with
    | [] => simp
    | latest :: rest =>
      simp only
      split
      · next hmerge =>
        rw [List.chain'_cons'] at h ⊢
        refine ⟨?_, h.2⟩
        intro y hy
        exact h.1 y hy
      · next hnomerge =>
        rw [List.chain'_cons']
        refine ⟨?_, h⟩
        intro y hy
        simp only [List.head?_cons, Option.mem_def, Option.some.injEq] at hy
        subst hy
        exact fun hc => hnomerge hc

/-- The `diffAux` loop walking two identical suffixes pushes nothing. -/
theorem diffAux_self {T : Type} [DecidableEq T] (contains : T → Bool) :
    ∀ (l : List T) (beforeIdx : Nat) (acc : List (ISplice T)),
      diffAux contains l l beforeIdx acc = acc := by
  intro l
  induction l with
  | nil =>
    intro beforeIdx acc
    rw [show diffAux contains [] [] beforeIdx acc
          = pushSplice acc beforeIdx 0 [] from by rw [diffAux]]
    simp [pushSplice]
  | cons x xs ih =>
    intro beforeIdx acc
    rw [show diffAux contains (x :: xs) (x :: xs) beforeIdx acc
          = diffAux contains xs xs (beforeIdx + 1) acc from by
        rw [diffAux]; simp]
    exact ih (beforeIdx + 1) acc

/-! ### Claims about the splice engine -/

/-- C1: For all sequences A and B and any `contains` predicate consistent
with A's membership (`contains x` holds exactly when `x` occurs in A),
applying the splices returned by `diff A B contains` to A in order,
left-to-right, reproduces B exactly. -/
theorem claim_C1 {T : Type} [DecidableEq T] (A B : List T)
    (contains : T → Bool)
    (hconsistent : ∀ x, contains x = true ↔ x ∈ A) :
    applySplices A (diff A B contains) = B :=
  diff_reconstructs A B contains

theorem claim_C1_witness :
    applySplices [1, 2]
        (diff [1, 2] [2, 1, 3] (fun x => decide (x ∈ ([1, 2] : List Nat))))
      = [2, 1, 3] :=
  claim_C1 [1, 2] [2, 1, 3] (fun x => decide (x ∈ ([1, 2] : List Nat)))
    (fun x => by simp)

/-- C6: For all sequences A, B and every `contains` predicate, no two
consecutive entries of `diff A B contains` satisfy
`result[i].start + result[i].deleteCount = result[i+1].start`: adjacent
splices are always merged. -/
theorem claim_C6 {T : Type} [DecidableEq T] (A B : List T)
    (contains : T → Bool) :
    List.Chain' (fun r s => r.start + r.deleteCount ≠ s.start)
      (diff A B contains) := by
  have hacc := diffAux_preserves
    (List.Chain' (fun s t => t.start + t.deleteCount ≠ s.start)) contains
    pushSplice_chain (A.length + B.length) A B 0 [] le_rfl (by simp)
  unfold diff
  rw [List.chain'_reverse]
  exact hacc

/-- C7, counterexample: on the concrete input A = [], B = [] the claim's
promised single splice is not returned: `diff [] [] contains` is empty. -/
theorem claim_C7_counterexample :
    diff ([] : List Nat) [] (fun _ => false)
      ≠ [{ start := 0, deleteCount := 0, toInsert := [] }] := by
  intro h
  rw [diff, diffAux_self] at h
  simp at h

/-- C7 (amended): For every nonempty B, `diff [] B contains` is exactly the
single splice `{start 0, deleteCount 0, toInsert B}`, and for every nonempty
A, `diff A [] contains` is exactly the single splice
`{start 0, deleteCount (length A), toInsert []}`, for any `contains`
predicate.  (When both sides are empty, `diff` returns no splices.) -/
theorem claim_C7_amended {T : Type} [DecidableEq T] (A B : List T)
    (contains : T → Bool) :
    (B ≠ [] →
      diff [] B contains = [{ start := 0, deleteCount := 0, toInsert := B }]) ∧
    (A ≠ [] →
      diff A [] contains
        = [{ start := 0, deleteCount := A.length, toInsert := [] }]) := by
  constructor
  · intro hB
    cases B with
    | nil => exact absurd rfl hB
    | cons b bs =>
      unfold diff
      rw [show diffAux contains [] (b :: bs) 0 []
            = pushSplice [] 0 0 (b :: bs) from by rw [diffAux]]
      simp [pushSplice]
  · intro hA
    cases A with
    | nil => exact absurd rfl hA
    | cons a as =>
      unfold diff
      rw [show diffAux contains (a :: as) [] 0 []
            = pushSplice [] 0 (as.length + 1) [] from by rw [diffAux]]
      simp [pushSplice]

theorem claim_C7_witness :
    diff ([] : List Nat) [5] (fun _ => false)
        = [{ start := 0, deleteCount := 0, toInsert := [5] }] ∧
    diff [7] ([] : List Nat) (fun _ => false)
        = [{ start := 0, deleteCount := 1, toInsert := [] }] :=
  ⟨(claim_C7_amended [7] [5] (fun _ => false)).1 (by decide),
   (claim_C7_amended [7] [5] (fun _ => false)).2 (by decide)⟩

/-- C8: For every sequence A and every `contains` predicate,
`diff A A contains` returns the empty splice list; in particular
`diff [] []` returns no splices. -/
theorem claim_C8 {T : Type} [DecidableEq T] (A : List T)
    (contains : T → Bool) :
    diff A A contains = [] := by
  unfold diff
  rw [diffAux_self contains A 0 []]
  rfl

/-! ### Output model, renderer registry and mimetype resolution -/

/-- Cell type tag (`cell_type` in the source). -/
inductive CellKind where
  | markdown
  | code
deriving DecidableEq, Repr

/-- Tag of a display-style output (`output_type`), the two variants that
`transformMimeTypes` handles. -/
inductive DispKind where
  | display_data
  | execute_result
deriving DecidableEq, Repr

/-- A cell output.  `display` carries the mimetype-to-content record
(`output.data`, embedded as an association list in key order); the stream
and error payloads are opaque to everything verified here. -/
inductive Output where
  | stream (text : String)
  | error (ename : String) (evalue : String)
  | display (output_type : DispKind) (data : List (String × String))
deriving DecidableEq, Repr

/-- `ExtHostCell`, restricted to the persistent fields the document-level
operations read (`handle`, `source`, `language`, `cell_type`, `_outputs`).
JS reference identity of cells is embedded as equality of these values;
distinct live cells always have distinct handles. -/
structure ExtHostCell where
  handle : Nat
  source : List String
  language : String
  cell_type : CellKind
  outputs : List Output
deriving DecidableEq, Repr

/-- `vscode.NotebookOutputSelector`: the renderer's mimetype filter. -/
structure NotebookOutputSelector where
  subTypes : Option (List String)

/-- `ExtHostNotebookOutputRenderer`.  The wrapped extension callback
`renderer.render(document, cell, output, mimeType)` is embedded without the
document self-argument (the callback is opaque; nothing verified depends on
it).  Handles are numbers; `-1` is reserved as the builtin sentinel in
candidate lists, so they are embedded as `Int`. -/
structure ExtHostNotebookOutputRenderer where
  handle : Int
  type : String
  filter : NotebookOutputSelector
  renderer : ExtHostCell → Output → String → String

/-- `ExtHostNotebookOutputRenderer.matches`. -/
def ExtHostNotebookOutputRenderer.matches
    (r : ExtHostNotebookOutputRenderer) (mimeType : String) : Bool :=
  match r.filter.subTypes with
  | some subTypes => subTypes.contains mimeType
  | none => false

/-- `ExtHostNotebookOutputRenderer.render`: invoke the wrapped callback. -/
def ExtHostNotebookOutputRenderer.render
    (r : ExtHostNotebookOutputRenderer) (cell : ExtHostCell) (output : Output)
    (mimeType : String) : String :=
  r.renderer cell output mimeType

/-- `ExtHostNotebookController.findBestMatchedRenderer`: all registered
renderers whose filter matches, in registration (map insertion) order. -/
def findBestMatchedRenderer (renderers : List ExtHostNotebookOutputRenderer)
    (mimeType : String) : List ExtHostNotebookOutputRenderer :=
  renderers.filter (fun r => r.matches mimeType)

/-- A parsed display-order entry (`glob.ParsedPattern`): a predicate on
mimetype strings. -/
abbrev ParsedPattern := String → Bool

/-- `ExtHostOutputDisplayOrder` (the controller's `_outputDisplayOrder`):
parsed default order, and optional parsed user order. -/
structure ExtHostOutputDisplayOrder where
  defaultOrder : List ParsedPattern
  userOrder : Option (List ParsedPattern)

/-- Index of the first pattern matching `mimeType` in one list; embeds one
of the three indexed `for` loops of `getMimeTypeOrder`. -/
def firstMatchingPatternIdx (patterns : List ParsedPattern)
    (mimeType : String) : Option Nat :=
  match patterns with
  | [] => none
  | p :: rest =>
    if p mimeType then some 0
    else (firstMatchingPatternIdx rest mimeType).map (· + 1)

/-- `ExtHostNotebookDocument.getMimeTypeOrder`.  The source threads a
mutable counter `order` through three scans (user order, then the
document's `_parsedDisplayOrder`, then default order) and returns it at the
first match, or after all scans; the counter is the cumulative offset made
explicit here. -/
def getMimeTypeOrder (coreDisplayOrder : Option ExtHostOutputDisplayOrder)
    (parsedDisplayOrder : List ParsedPattern) (mimeType : String) : Nat :=
  match coreDisplayOrder with
  | none => 0
  | some core =>
    let userDisplayOrder := core.userOrder.getD []
    match firstMatchingPatternIdx userDisplayOrder mimeType with
    | some i => i
    | none =>
      match firstMatchingPatternIdx parsedDisplayOrder mimeType with
      | some i => userDisplayOrder.length + i
      | none =>
        match firstMatchingPatternIdx core.defaultOrder mimeType with
        | some i => userDisplayOrder.length + parsedDisplayOrder.length + i
        | none =>
          userDisplayOrder.length + parsedDisplayOrder.length
            + core.defaultOrder.length

/-- Modelled from the spec: `glob.parse` from `vs/base/common/glob` is not
part of this repository; the spec describes display-order entries as
glob-style patterns matched against a mimetype string, exercised in the two
forms `type/subtype` (exact) and `type/*` (subtype wildcard).  The pattern
is compiled to a predicate accordingly. -/
def parsePattern (pattern : String) : ParsedPattern := fun mimeType =>
  let p := pattern.data
  let m := mimeType.data
  if 2 ≤ p.length ∧ p.drop (p.length - 2) = ['/', '*'] then
    List.isPrefixOf (p.take (p.length - 1)) m
  else
    p = m

/-- The spec's rank function, stated as written: the index of the first
matching pattern scanning userOrder, then documentOrder, then defaultOrder,
each list offset by the cumulative length of the lists scanned before it;
if nothing matches, the total number of patterns scanned. -/
def rankSpec (userOrder documentOrder defaultOrder : List ParsedPattern)
    (mimeType : String) : Nat :=
  let all := userOrder ++ (documentOrder ++ defaultOrder)
  match firstMatchingPatternIdx all mimeType with
  | some i => i
  | none => all.length

/-- `IOrderedMimeType`: one candidate of a transformed display output. -/
structure IOrderedMimeType where
  mimeType : String
  isResolved : Bool
  rendererId : Option Int := none
  output : Option String := none
deriving DecidableEq, Repr

/-- `ITransformedDisplayOutputDto`. -/
structure ITransformedDisplayOutputDto where
  output_type : DispKind
  data : List (String × String)
  orderedMimeTypes : List IOrderedMimeType
  pickedMimeTypeIndex : Nat
deriving DecidableEq, Repr

/-- The state `transformMimeTypes` consults: the rendering handler's
display order and renderer registry (in registration order), and the
document's own parsed display order.  `mimeTypeSupportedByCore` is Modelled
from the spec: the predicate from `notebookCommon` is not part of this
repository; the spec only says a synthetic builtin candidate is appended
when the mimetype is natively supported, so the predicate is kept
abstract. -/
structure ResolveCtx where
  outputDisplayOrder : Option ExtHostOutputDisplayOrder
  parsedDisplayOrder : List ParsedPattern
  renderers : List ExtHostNotebookOutputRenderer
  mimeTypeSupportedByCore : String → Bool

/-- The candidates pushed for one mimetype by the `sorted.forEach` body of
`transformMimeTypes`, paired with the renderer invocations that body
performs (the instrumentation log: `(handle, mimeType)` per `render`
call). -/
def transformGroup (ctx : ResolveCtx) (cell : ExtHostCell) (output : Output)
    (mimeType : String) : List IOrderedMimeType × List (Int × String) :=
  match findBestMatchedRenderer ctx.renderers mimeType with
  | [] =>
    ([{ mimeType := mimeType, isResolved := false }], [])
  | firstHandler :: restHandlers =>
    (({ mimeType := mimeType, isResolved := true,
        rendererId := some firstHandler.handle,
        output := some (firstHandler.render cell output mimeType) } ::
      restHandlers.map (fun r =>
        { mimeType := mimeType, isResolved := false,
          rendererId := some r.handle })) ++
      (if ctx.mimeTypeSupportedByCore mimeType then
        [{ mimeType := mimeType, isResolved := false, rendererId := some (-1) }]
      else []),
     [(firstHandler.handle, mimeType)])

/-- `ExtHostNotebookDocument.transformMimeTypes`, instrumented: returns the
transformed dto together with the list of renderer invocations the call
performed, in order.  `Object.keys(output.data)` is the association list's
key order; the JS stable `sort` with comparator
`getMimeTypeOrder a - getMimeTypeOrder b` is a stable sort by rank. -/
def transformMimeTypes (ctx : ResolveCtx) (cell : ExtHostCell)
    (output_type : DispKind) (data : List (String × String)) :
    ITransformedDisplayOutputDto × List (Int × String) :=
  let mimeTypes := data.map Prod.fst
  let sorted := mimeTypes.insertionSort (fun a b =>
    getMimeTypeOrder ctx.outputDisplayOrder ctx.parsedDisplayOrder a
      ≤ getMimeTypeOrder ctx.outputDisplayOrder ctx.parsedDisplayOrder b)
  let groups := sorted.map
    (transformGroup ctx cell (Output.display output_type data))
  ({ output_type := output_type, data := data,
     orderedMimeTypes := (groups.map Prod.fst).flatten,
     pickedMimeTypeIndex := 0 },
   (groups.map Prod.snd).flatten)

/-! ### Document model (`ExtHostNotebookDocument`) -/

/-- One transported cell output inside an `ICellDto`: display outputs are
replaced by their transformed dto, other outputs pass through unchanged. -/
inductive CellOutputDto where
  | transformed (dto : ITransformedDisplayOutputDto)
  | raw (output : Output)
deriving DecidableEq, Repr

/-- `ICellDto`, the transport record built per inserted cell. -/
structure ICellDto where
  handle : Nat
  source : List String
  language : String
  cell_type : CellKind
  outputs : List CellOutputDto
  isDirty : Bool
deriving DecidableEq, Repr

/-- The single `$spliceNotebookCells` message a `cells` assignment forwards
to the remote peer: the splice list (`NotebookCellsSplice[]`, each
`[start, deleteCount, cellDtos]`) and the used-renderer handles
(`Array.from` of the accumulated `Set`, in insertion order). -/
structure NotebookCellsSpliceMsg where
  diffs : List (Nat × Nat × List ICellDto)
  renderers : List Int
deriving DecidableEq, Repr

/-- `Set<number>.add` followed by `Array.from`: insertion-ordered,
duplicate-free accumulation of used renderer handles. -/
def addUsedRenderer (renderers : List Int) (handle : Int) : List Int :=
  if renderers.contains handle then renderers else renderers ++ [handle]

/-- The per-output body of the `outputs.map` in `eventuallyUpdateCells`:
transform a display output and record the picked candidate's renderer when
it is resolved.  (On a display output with no data keys the source would
fault reading `orderedMimeTypes[0]`; the lookup is embedded with `get?`,
and an absent candidate adds no renderer.) -/
def transformCellOutput (ctx : ResolveCtx) (cell : ExtHostCell)
    (renderers : List Int) (output : Output) : CellOutputDto × List Int :=
  match output with
  | Output.display kind data =>
    let ret := (transformMimeTypes ctx cell kind data).1
    let renderers :=
      match ret.orderedMimeTypes.get? ret.pickedMimeTypeIndex with
      | some picked =>
        if picked.isResolved then
          addUsedRenderer renderers (picked.rendererId.getD (-1))
        else renderers
      | none => renderers
    (CellOutputDto.transformed ret, renderers)
  | _ => (CellOutputDto.raw output, renderers)

/-- `ExtHostNotebookDocument.eventuallyUpdateCells`: build the splice dtos
(serializing each inserted cell, transforming its display outputs) while
accumulating the used-renderer set, and forward one `$spliceNotebookCells`
message. -/
def eventuallyUpdateCells (ctx : ResolveCtx)
    (diffs : List (ISplice ExtHostCell)) : NotebookCellsSpliceMsg :=
  let step := diffs.foldl (fun (acc : List (Nat × Nat × List ICellDto) × List Int) d =>
    let inner := d.toInsert.foldl
      (fun (acc2 : List ICellDto × List Int) cell =>
        let outs := cell.outputs.foldl
          (fun (acc3 : List CellOutputDto × List Int) output =>
            let (dto, rs) := transformCellOutput ctx cell acc3.2 output
            (acc3.1 ++ [dto], rs))
          ([], acc2.2)
        (acc2.1 ++ [{ handle := cell.handle, source := cell.source,
                      language := cell.language, cell_type := cell.cell_type,
                      outputs := outs.1, isDirty := false }], outs.2))
      ([], acc.2)
    (acc.1 ++ [(d.start, d.deleteCount, inner.1)], inner.2))
    ([], [])
  { diffs := step.1, renderers := step.2 }

/-- `ExtHostNotebookDocument` state: the cell list, the key set of
`_cellDisposableMapping` (a `Map<number, DisposableStore>`; the stores'
contents are subscription callbacks, embedded as presence of the key), and
`_languages`. -/
structure ExtHostNotebookDocument where
  cells : List ExtHostCell
  cellDisposableMapping : Finset Nat
  languages : List String
deriving DecidableEq

/-- The `cells` setter: diff old against new cells with
`_cellDisposableMapping.has(a.handle)` as the containment test; per splice,
clear and delete the mapping entries of the deleted range (read from the
old `_cells`), then register entries (with the output subscription) for
inserted cells; store the new list and forward the splices through
`eventuallyUpdateCells`. -/
def cellsSet (ctx : ResolveCtx) (st : ExtHostNotebookDocument)
    (newCells : List ExtHostCell) :
    ExtHostNotebookDocument × NotebookCellsSpliceMsg :=
  let diffs := diff st.cells newCells
    (fun a => decide (a.handle ∈ st.cellDisposableMapping))
  let mapping := diffs.foldl (fun mapping d =>
    let mapping := (List.range d.deleteCount).foldl (fun mapping i =>
      match st.cells.get? (d.start + i) with
      | some cell => mapping.erase cell.handle
      | none => mapping) mapping
    d.toInsert.foldl (fun mapping cell => insert cell.handle mapping) mapping)
    st.cellDisposableMapping
  ({ st with cells := newCells, cellDisposableMapping := mapping },
   eventuallyUpdateCells ctx diffs)

/-- `ExtHostNotebookDocument.deleteCell`.  The source only guards
`index >= this.cells.length`; for any other out-of-range index (negative),
`this.cells[index]` is `undefined` and reading `.handle` throws, embedded
as `none`.  `some (returnValue, newState)` is a normal return. -/
def deleteCell (st : ExtHostNotebookDocument) (index : Int) :
    Option (Bool × ExtHostNotebookDocument) :=
  if (st.cells.length : Int) ≤ index then
    some (false, st)
  else
    match (if 0 ≤ index then st.cells.get? index.toNat else none) with
    | none => none
    | some cell =>
      some (true,
        { st with
          cellDisposableMapping := st.cellDisposableMapping.erase cell.handle,
          cells := st.cells.eraseIdx index.toNat })

/-- The `languages` getter, `return this._languages = []`: the assignment's
value is stored and returned. -/
def languagesGet (st : ExtHostNotebookDocument) :
    List String × ExtHostNotebookDocument :=
  let assigned : List String := []
  (assigned, { st with languages := assigned })

/-- The `languages` setter: store the new list and forward
`$updateNotebookLanguages(viewType, uri, this._languages)`; the returned
list is the message payload. -/
def languagesSet (st : ExtHostNotebookDocument) (newLanguages : List String) :
    ExtHostNotebookDocument × List String :=
  let st := { st with languages := newLanguages }
  (st, st.languages)

/-! ### Claims C4, C9, C10 -/

theorem firstMatchingPatternIdx_append (l1 l2 : List ParsedPattern)
    (m : String) :
    firstMatchingPatternIdx (l1 ++ l2) m
      = match firstMatchingPatternIdx l1 m with
        | some i => some i
        | none => (firstMatchingPatternIdx l2 m).map (· + l1.length) := by
  induction l1 with
  | nil =>
    simp only [List.nil_append, firstMatchingPatternIdx, List.length_nil]
    cases firstMatchingPatternIdx l2 m <;> simp
  | cons p rest ih =>
    simp only [List.cons_append, firstMatchingPatternIdx, List.append_eq]
    by_cases hp : p m
    · simp [hp]
    · simp only [if_neg hp]
      rw [ih]
      cases h1 : firstMatchingPatternIdx rest m with
      | some i => simp
      | none =>
        cases h2 : firstMatchingPatternIdx l2 m with
        | none => simp
        | some j => simp [Nat.add_assoc]

/-- The used display-order configuration of the C4 ranking instance:
userOrder `[image/*]`, documentOrder `[]`,
defaultOrder `[text/plain, text/html]`. -/
def coreOrderC4 : ExtHostOutputDisplayOrder :=
  { defaultOrder := [parsePattern "text/plain", parsePattern "text/html"],
    userOrder := some [parsePattern "image/*"] }

/-- C4: `getMimeTypeOrder` returns the index of the first matching pattern
scanning userOrder, then documentOrder, then defaultOrder, with cumulative
offsets, and the total pattern count when nothing matches (the
`rankSpec` restatement of the spec); in particular, with
userOrder=[image/*], documentOrder=[], defaultOrder=[text/plain, text/html]
the ranks of image/png, text/plain, text/html, application/json are
0, 1, 2, 3. -/
theorem claim_C4 (userOrderOpt : Option (List ParsedPattern))
    (documentOrder defaultOrder : List ParsedPattern) (m : String) :
    (getMimeTypeOrder
        (some { defaultOrder := defaultOrder, userOrder := userOrderOpt })
        documentOrder m
      = rankSpec (userOrderOpt.getD []) documentOrder defaultOrder m) ∧
    getMimeTypeOrder (some coreOrderC4) [] "image/png" = 0 ∧
    getMimeTypeOrder (some coreOrderC4) [] "text/plain" = 1 ∧
    getMimeTypeOrder (some coreOrderC4) [] "text/html" = 2 ∧
    getMimeTypeOrder (some coreOrderC4) [] "application/json" = 3 := by
  refine ⟨?_, by decide, by decide, by decide, by decide⟩
  simp only [getMimeTypeOrder, rankSpec]
  rw [firstMatchingPatternIdx_append, firstMatchingPatternIdx_append]
  cases h1 : firstMatchingPatternIdx (userOrderOpt.getD []) m with
  | some i => simp
  | none =>
    cases h2 : firstMatchingPatternIdx documentOrder m with
    | some i => simp [Nat.add_comm]
    | none =>
      cases h3 : firstMatchingPatternIdx defaultOrder m with
      | some i =>
        simp
        omega
      | none =>
        simp
        omega

/-- A concrete one-cell document used by the C9 theorems. -/
def docC9 : ExtHostNotebookDocument :=
  { cells := [{ handle := 1, source := ["x"], language := "python",
                cell_type := CellKind.code, outputs := [] }],
    cellDisposableMapping := {1},
    languages := [] }

/-- C9, counterexample: at the negative out-of-range index `-1`,
`deleteCell` does not return `false` leaving the state unchanged — the
unguarded `this.cells[-1].handle` access faults (embedded as `none`). -/
theorem claim_C9_counterexample :
    deleteCell docC9 (-1) ≠ some (false, docC9) := by
  decide

/-- C9 (amended): for every index at or beyond the number of cells,
`deleteCell` returns `false` and performs no mutation.  (Negative indices
are not guarded by the source: there `cells[index]` is undefined and
reading its `handle` throws.) -/
theorem claim_C9_amended (st : ExtHostNotebookDocument) (index : Int)
    (h : (st.cells.length : Int) ≤ index) :
    deleteCell st index = some (false, st) := by
  unfold deleteCell
  rw [if_pos h]

theorem claim_C9_witness : deleteCell docC9 5 = some (false, docC9) :=
  claim_C9_amended docC9 5 (by decide)

/-- C10: every read of the `languages` property returns the empty list and
resets the stored list to empty, regardless of any value previously
assigned through the setter; the setter forwards the assigned list to the
remote peer, but the assignment is never observable through the getter. -/
theorem claim_C10 (st : ExtHostNotebookDocument) (assigned : List String) :
    (languagesGet st).1 = [] ∧
    (languagesGet st).2.languages = [] ∧
    (languagesSet st assigned).2 = assigned ∧
    (languagesGet (languagesSet st assigned).1).1 = [] ∧
    (languagesGet (languagesSet st assigned).1).2.languages = [] :=
  ⟨rfl, rfl, rfl, rfl, rfl⟩

/-! ### Claim C3: the cells setter scenario -/

/-- C3: for a document whose subscription map holds exactly the handles
{1,2,3} of its cells [c1,c2,c3], running the `cells` setter with new cells
[c1,c3] leaves the subscription map holding exactly {1,3} (handle 2 torn
down in the same mutation) and forwards one `$spliceNotebookCells` message
carrying the single splice `{start 1, deleteCount 1, inserted []}` (and no
used renderers). -/
theorem claim_C3 (ctx : ResolveCtx) (c1 c2 c3 : ExtHostCell)
    (h1 : c1.handle = 1) (h2 : c2.handle = 2) (h3 : c3.handle = 3) :
    (cellsSet ctx
        { cells := [c1, c2, c3], cellDisposableMapping := {1, 2, 3},
          languages := [] } [c1, c3]).1.cellDisposableMapping = {1, 3} ∧
    (cellsSet ctx
        { cells := [c1, c2, c3], cellDisposableMapping := {1, 2, 3},
          languages := [] } [c1, c3]).2
      = { diffs := [(1, 1, [])], renderers := [] } := by
  have hne : c2 ≠ c3 := by
    intro h
    rw [h, h3] at h2
    simp at h2
  have hdiff : diff [c1, c2, c3] [c1, c3]
      (fun a => decide (a.handle ∈ ({1, 2, 3} : Finset Nat)))
      = [{ start := 1, deleteCount := 1, toInsert := [] }] := by
    simp [diff, diffAux, pushSplice, hne, h3]
  constructor
  · simp only [cellsSet, hdiff]
    have hr : List.range 1 = [0] := rfl
    simp [hr, h2]
    decide
  · simp only [cellsSet, hdiff]
    simp [eventuallyUpdateCells]

/-- Concrete cells and context instantiating the C3 scenario. -/
def cellA : ExtHostCell :=
  { handle := 1, source := ["a"], language := "python",
    cell_type := CellKind.code, outputs := [] }

def cellB : ExtHostCell :=
  { handle := 2, source := ["b"], language := "python",
    cell_type := CellKind.code, outputs := [] }

def cellC : ExtHostCell :=
  { handle := 3, source := ["c"], language := "python",
    cell_type := CellKind.markdown, outputs := [] }

def ctxTrivial : ResolveCtx :=
  { outputDisplayOrder := none, parsedDisplayOrder := [], renderers := [],
    mimeTypeSupportedByCore := fun _ => false }

theorem claim_C3_witness :
    (cellsSet ctxTrivial
        { cells := [cellA, cellB, cellC], cellDisposableMapping := {1, 2, 3},
          languages := [] } [cellA, cellC]).1.cellDisposableMapping = {1, 3} ∧
    (cellsSet ctxTrivial
        { cells := [cellA, cellB, cellC], cellDisposableMapping := {1, 2, 3},
          languages := [] } [cellA, cellC]).2
      = { diffs := [(1, 1, [])], renderers := [] } :=
  claim_C3 ctxTrivial cellA cellB cellC rfl rfl rfl

/-! ### Claims C2 and C5: output resolution -/

/-- The renderer invocation a candidate accounts for: resolved candidates
carry the invoked renderer's handle and mimetype, unresolved ones none. -/
def resolvedInvocation (c : IOrderedMimeType) : Option (Int × String) :=
  match c.isResolved, c.rendererId with
  | true, some handle => some (handle, c.mimeType)
  | _, _ => none

theorem transformGroup_mimeType (ctx : ResolveCtx) (cell : ExtHostCell)
    (output : Output) (m : String) :
    ∀ c ∈ (transformGroup ctx cell output m).1, c.mimeType = m := by
  intro c hc
  unfold transformGroup at hc
  cases hfind : findBestMatchedRenderer ctx.renderers m with
  | nil =>
    rw [hfind] at hc
    simp at hc
    rw [hc]
  | cons firstHandler restHandlers =>
    rw [hfind] at hc
    simp only [List.cons_append, List.mem_cons, List.mem_append,
      List.mem_map] at hc
    rcases hc with hc | hc
    · rw [hc]
    · rcases hc with ⟨r, _, hc⟩ | hc
      · rw [← hc]
      · by_cases hcore : ctx.mimeTypeSupportedByCore m
        · simp [hcore] at hc
          rw [hc]
        · simp [hcore] at hc

theorem transformGroup_shape (ctx : ResolveCtx) (cell : ExtHostCell)
    (output : Output) (m : String) :
    ∃ hd tl, (transformGroup ctx cell output m).1 = hd :: tl ∧
      ∀ c ∈ tl, c.isResolved = false := by
  unfold transformGroup
  cases hfind : findBestMatchedRenderer ctx.renderers m with
  | nil => exact ⟨_, [], rfl, fun c hc => absurd hc (List.not_mem_nil c)⟩
  | cons firstHandler restHandlers =>
    refine ⟨_, _, rfl, ?_⟩
    intro c hc
    rcases List.mem_append.mp hc with hc | hc
    · obtain ⟨r, _, hr⟩ := List.mem_map.mp hc
      rw [← hr]
    · by_cases hcore : ctx.mimeTypeSupportedByCore m
      · rw [if_pos hcore] at hc
        rw [List.mem_singleton.mp hc]
      · rw [if_neg hcore] at hc
        exact absurd hc (List.not_mem_nil c)

theorem filterMap_resolvedInvocation_unresolved
    (restHandlers : List ExtHostNotebookOutputRenderer) (m : String) :
    (restHandlers.map (fun r =>
        ({ mimeType := m, isResolved := false,
           rendererId := some r.handle } : IOrderedMimeType))).filterMap
      resolvedInvocation = [] := by
  induction restHandlers with
  | nil => rfl
  | cons r rest ih => simp [resolvedInvocation, ih]

/-- The instrumentation log of one mimetype group is exactly the group's
resolved candidates' invocations. -/
theorem transformGroup_log (ctx : ResolveCtx) (cell : ExtHostCell)
    (output : Output) (m : String) :
    (transformGroup ctx cell output m).2
      = (transformGroup ctx cell output m).1.filterMap resolvedInvocation := by
  unfold transformGroup
  cases hfind : findBestMatchedRenderer ctx.renderers m with
  | nil => simp [resolvedInvocation]
  | cons firstHandler restHandlers =>
    simp only [List.cons_append, List.filterMap_cons]
    rw [show resolvedInvocation
          { mimeType := m, isResolved := true,
            rendererId := some firstHandler.handle,
            output := some (firstHandler.render cell output m) }
        = some (firstHandler.handle, m) from rfl]
    rw [List.filterMap_append, filterMap_resolvedInvocation_unresolved]
    by_cases hcore : ctx.mimeTypeSupportedByCore m
    · simp [hcore, resolvedInvocation]
    · simp [hcore]

/-- C2 (amended): the renderer invocations `transformMimeTypes` performs
are exactly those of the resolved candidates — one per mimetype that has a
matching renderer (its first match); the render function of every
unresolved candidate is not invoked by the call — and
`pickedMimeTypeIndex` initializes to 0. -/
theorem claim_C2_amended (ctx : ResolveCtx) (cell : ExtHostCell)
    (output_type : DispKind) (data : List (String × String)) :
    (transformMimeTypes ctx cell output_type data).2
      = (transformMimeTypes ctx cell output_type data).1.orderedMimeTypes.filterMap
          resolvedInvocation ∧
    (transformMimeTypes ctx cell output_type data).1.pickedMimeTypeIndex = 0 := by
  constructor
  · simp only [transformMimeTypes]
    generalize (data.map Prod.fst).insertionSort (fun a b =>
      getMimeTypeOrder ctx.outputDisplayOrder ctx.parsedDisplayOrder a
        ≤ getMimeTypeOrder ctx.outputDisplayOrder ctx.parsedDisplayOrder b) = ms
    induction ms with
    | nil => simp
    | cons m ms ih =>
      simp only [List.map_cons, List.flatten_cons, List.filterMap_append]
      rw [transformGroup_log ctx cell (Output.display output_type data) m]
      rw [ih]
  · rfl

/-- Renderers for the C2 counterexample: one matching `a/x`, one matching
`b/y`. -/
def rendererAX : ExtHostNotebookOutputRenderer :=
  { handle := 0, type := "display", filter := { subTypes := some ["a/x"] },
    renderer := fun _ _ _ => "ra" }

def rendererBY : ExtHostNotebookOutputRenderer :=
  { handle := 1, type := "display", filter := { subTypes := some ["b/y"] },
    renderer := fun _ _ _ => "rb" }

def ctxC2 : ResolveCtx :=
  { outputDisplayOrder := none, parsedDisplayOrder := [],
    renderers := [rendererAX, rendererBY],
    mimeTypeSupportedByCore := fun _ => false }

/-- C2, counterexample: on an output with data keys `a/x` and `b/y` and a
matching renderer registered for each, the single `transformMimeTypes` call
eagerly invokes both renderers — its invocation log is
`[(0, a/x), (1, b/y)]` — although the picked candidate (index 0) is the
`a/x` one; so a render function of a candidate other than the picked one is
invoked by the call, refuting the claim. -/
theorem claim_C2_counterexample :
    (transformMimeTypes ctxC2 cellA DispKind.display_data
        [("a/x", "1"), ("b/y", "2")]).1.pickedMimeTypeIndex = 0 ∧
    ((transformMimeTypes ctxC2 cellA DispKind.display_data
        [("a/x", "1"), ("b/y", "2")]).1.orderedMimeTypes.get? 0).map
        IOrderedMimeType.mimeType = some "a/x" ∧
    (transformMimeTypes ctxC2 cellA DispKind.display_data
        [("a/x", "1"), ("b/y", "2")]).2 = [(0, "a/x"), (1, "b/y")] := by
  decide

/-- The helper `Pairwise` principle for the flattened candidate list of
`transformMimeTypes`: pairwise within each mimetype group and pairwise
across the sorted mimetype list give pairwise on `orderedMimeTypes`. -/
theorem orderedMimeTypes_pairwise (ctx : ResolveCtx) (cell : ExtHostCell)
    (output_type : DispKind) (data : List (String × String))
    (R : IOrderedMimeType → IOrderedMimeType → Prop)
    (hwithin : ∀ m, List.Pairwise R
      ((transformGroup ctx cell (Output.display output_type data) m).1))
    (hcross : List.Pairwise (fun m1 m2 =>
        ∀ x ∈ (transformGroup ctx cell (Output.display output_type data) m1).1,
        ∀ y ∈ (transformGroup ctx cell (Output.display output_type data) m2).1,
          R x y)
      ((data.map Prod.fst).insertionSort (fun a b =>
        getMimeTypeOrder ctx.outputDisplayOrder ctx.parsedDisplayOrder a
          ≤ getMimeTypeOrder ctx.outputDisplayOrder ctx.parsedDisplayOrder b))) :
    List.Pairwise R
      (transformMimeTypes ctx cell output_type data).1.orderedMimeTypes := by
  simp only [transformMimeTypes]
  rw [List.map_map, List.pairwise_flatten]
  constructor
  · intro l hl
    rw [List.mem_map] at hl
    obtain ⟨m, _, hml⟩ := hl
    rw [← hml]
    exact hwithin m
  · rw [List.pairwise_map]
    exact hcross

/-- The registered renderer of the C5 instance, matching `image/png`. -/
def pngRenderer : ExtHostNotebookOutputRenderer :=
  { handle := 7, type := "display", filter := { subTypes := some ["image/png"] },
    renderer := fun _ _ _ => "PNG" }

/-- The C5 instance context: userOrder [image/*], documentOrder [],
defaultOrder [text/plain, text/html], one renderer matching image/png. -/
def ctxC5 : ResolveCtx :=
  { outputDisplayOrder := some coreOrderC4, parsedDisplayOrder := [],
    renderers := [pngRenderer], mimeTypeSupportedByCore := fun _ => false }

/-- C5: the candidates of a transformed display output appear in ascending
order of their mimetype's rank; `pickedMimeTypeIndex` initializes to 0; per
mimetype the first candidate is the only one that can be resolved (every
later candidate sharing its mimetype is unresolved), assuming the data
record's keys are distinct, as JS object keys are; and on the instance with
data {text/plain, image/png}, one registered renderer matching image/png
and userOrder=[image/*], the candidate at index 0 is the resolved image/png
candidate. -/
theorem claim_C5 (ctx : ResolveCtx) (cell : ExtHostCell)
    (output_type : DispKind) (data : List (String × String))
    (hnodup : (data.map Prod.fst).Nodup) :
    List.Pairwise (fun c c' =>
        getMimeTypeOrder ctx.outputDisplayOrder ctx.parsedDisplayOrder
            c.mimeType
          ≤ getMimeTypeOrder ctx.outputDisplayOrder ctx.parsedDisplayOrder
            c'.mimeType)
      (transformMimeTypes ctx cell output_type data).1.orderedMimeTypes ∧
    (transformMimeTypes ctx cell output_type data).1.pickedMimeTypeIndex = 0 ∧
    List.Pairwise (fun c c' => c.mimeType = c'.mimeType →
        c'.isResolved = false)
      (transformMimeTypes ctx cell output_type data).1.orderedMimeTypes ∧
    (transformMimeTypes ctxC5 cellA DispKind.display_data
        [("text/plain", "x"), ("image/png", "y")]).1.orderedMimeTypes.get? 0
      = some { mimeType := "image/png", isResolved := true,
               rendererId := some 7, output := some "PNG" } := by
  have hrank := fun m =>
    getMimeTypeOrder ctx.outputDisplayOrder ctx.parsedDisplayOrder m
  haveI htotal : IsTotal String (fun a b =>
      getMimeTypeOrder ctx.outputDisplayOrder ctx.parsedDisplayOrder a
        ≤ getMimeTypeOrder ctx.outputDisplayOrder ctx.parsedDisplayOrder b) :=
    ⟨fun a b => Nat.le_total _ _⟩
  haveI htrans : IsTrans String (fun a b =>
      getMimeTypeOrder ctx.outputDisplayOrder ctx.parsedDisplayOrder a
        ≤ getMimeTypeOrder ctx.outputDisplayOrder ctx.parsedDisplayOrder b) :=
    ⟨fun a b c hab hbc => le_trans hab hbc⟩
  have hsorted : List.Pairwise (fun a b =>
      getMimeTypeOrder ctx.outputDisplayOrder ctx.parsedDisplayOrder a
        ≤ getMimeTypeOrder ctx.outputDisplayOrder ctx.parsedDisplayOrder b)
      ((data.map Prod.fst).insertionSort (fun a b =>
        getMimeTypeOrder ctx.outputDisplayOrder ctx.parsedDisplayOrder a
          ≤ getMimeTypeOrder ctx.outputDisplayOrder ctx.parsedDisplayOrder b)) :=
    List.sorted_insertionSort _ _
  have hsortedNodup : ((data.map Prod.fst).insertionSort (fun a b =>
      getMimeTypeOrder ctx.outputDisplayOrder ctx.parsedDisplayOrder a
        ≤ getMimeTypeOrder ctx.outputDisplayOrder ctx.parsedDisplayOrder b)).Nodup :=
    (List.perm_insertionSort _ _).nodup_iff.mpr hnodup
  refine ⟨?_, rfl, ?_, by decide⟩
  · refine orderedMimeTypes_pairwise ctx cell output_type data _ ?_ ?_
    · intro m
      refine List.pairwise_of_forall_mem_list ?_
      intro x hx y hy
      rw [transformGroup_mimeType ctx cell _ m x hx,
        transformGroup_mimeType ctx cell _ m y hy]
    · refine hsorted.imp ?_
      intro m1 m2 h12 x hx y hy
      rw [transformGroup_mimeType ctx cell _ m1 x hx,
        transformGroup_mimeType ctx cell _ m2 y hy]
      exact h12
  · refine orderedMimeTypes_pairwise ctx cell output_type data _ ?_ ?_
    · intro m
      obtain ⟨hd, tl, hgroup, htl⟩ :=
        transformGroup_shape ctx cell (Output.display output_type data) m
      rw [hgroup]
      rw [List.pairwise_cons]
      exact ⟨fun y hy _ => htl y hy,
        List.pairwise_of_forall_mem_list fun a _ b hb _ => htl b hb⟩
    · refine hsortedNodup.imp ?_
      intro m1 m2 h12 x hx y hy hxy
      exfalso
      apply h12
      rw [← transformGroup_mimeType ctx cell _ m1 x hx,
        ← transformGroup_mimeType ctx cell _ m2 y hy]
      exact hxy

theorem claim_C5_witness :
    List.Pairwise (fun c c' =>
        getMimeTypeOrder ctxC5.outputDisplayOrder ctxC5.parsedDisplayOrder
            c.mimeType
          ≤ getMimeTypeOrder ctxC5.outputDisplayOrder ctxC5.parsedDisplayOrder
            c'.mimeType)
      (transformMimeTypes ctxC5 cellA DispKind.display_data
        [("text/plain", "x"), ("image/png", "y")]).1.orderedMimeTypes ∧
    (transformMimeTypes ctxC5 cellA DispKind.display_data
        [("text/plain", "x"), ("image/png", "y")]).1.pickedMimeTypeIndex = 0 ∧
    List.Pairwise (fun c c' => c.mimeType = c'.mimeType →
        c'.isResolved = false)
      (transformMimeTypes ctxC5 cellA DispKind.display_data
        [("text/plain", "x"), ("image/png", "y")]).1.orderedMimeTypes ∧
    (transformMimeTypes ctxC5 cellA DispKind.display_data
        [("text/plain", "x"), ("image/png", "y")]).1.orderedMimeTypes.get? 0
      = some { mimeType := "image/png", isResolved := true,
               rendererId := some 7, output := some "PNG" } :=
  claim_C5 ctxC5 cellA DispKind.display_data
    [("text/plain", "x"), ("image/png", "y")] (by decide)

end NotebookModel
